import Mathlib

/-!
Verification development for the speasy fragment-cache orchestration core.

This file is a shallow embedding of the core logic of
`speasy/core/cache/_providers_caches.py` (fragment planner, contiguous-run
grouping, versioned and unversioned cache orchestrators) and of
`speasy/products/variable.py` (the `SpeasyVariable` container and the series
`merge` algorithm), together with theorems about that embedding.

Modelling conventions:
* Datetimes and timestamps are natural numbers counting nanoseconds.  Python
  datetimes have microsecond resolution and numpy timestamps are datetime64
  nanoseconds, so every reachable value is a multiple of 1000; the embedded
  operations are defined on all naturals.
* Numeric sample values are integers standing in for the float payloads: the
  merge logic only moves rows around, it never computes with them, so any
  value type with decidable equality embeds it faithfully.
* The tolerance `duration * 1.01` of the contiguous-run grouping is modelled
  exactly as the rational 101/100 via cross-multiplied integer comparisons.
  CPython computes `timedelta * 1.01` with the IEEE double closest to 1.01 and
  rounds to whole microseconds; for every duration small enough to be a real
  cache-fragment duration the two agree.
* Raised Python exceptions are modelled with `Except Unit`.
-/

/-- Nanoseconds in one hour. -/
def nsPerHour : Nat := 3600000000000

/-- Nanoseconds in one day. -/
def nsPerDay : Nat := 24 * nsPerHour

/-- The hour-of-day field of a datetime, `dt.hour`. -/
def hourOf (t : Nat) : Nat := t / nsPerHour % 24

/-- Midnight of the day containing `t`:
`dt.replace(hour=0, minute=0, second=0, microsecond=0)`. -/
def dayStart (t : Nat) : Nat := t - t % nsPerDay

/-- Models `math.ceil(a / f)` for natural `a`, positive natural `f`. -/
def ceil_div (a f : Nat) : Nat := (a + f - 1) / f

/-- Models `speasy.core.datetime_range.DateTimeRange`, the time-range type used by the
cache orchestrators.  Its own module is not part of the sources under study;
the fields are the `{start, stop}` pair of spec section 3. -/
structure DateTimeRange where
  start_time : Nat
  stop_time : Nat
  deriving DecidableEq

/-- Modelled from the spec: `TimeRange.duration()` of spec section 3, the
length `stop - start` of the range (the `DateTimeRange` module is not among
the sources under study). -/
def DateTimeRange.duration (r : DateTimeRange) : Nat :=
  r.stop_time - r.start_time

/-- Modelled from the spec: `TimeRange.scale(factor)` of spec section 3 with
the default `cache_margins = 1.2`, i.e. `dt_range * 1.2` in
`_Cacheable.fragment_list`.  The spec leaves the anchor of the scaling open
and recommends start-anchored expansion (section 9), which is used here: the
start is kept and the duration is multiplied by 6/5. -/
def DateTimeRange.scale12 (r : DateTimeRange) : DateTimeRange :=
  ⟨r.start_time, r.start_time + r.duration * 6 / 5⟩

/-- Models `lower_hour_bound(dt, factor)`: `math.floor(dt.hour / factor) * factor`. -/
def lower_hour_bound (t : Nat) (factor : Nat) : Nat :=
  hourOf t / factor * factor

/-- Models `upper_hour_bound(dt, factor)`:
`offsef = int(bool(dt - dt.replace(minute=0, second=0, microsecond=0)))`
(1 exactly when `dt` has a sub-hour remainder), then
`max(math.ceil((dt.hour + offsef) / factor), 1) * factor`. -/
def upper_hour_bound (t : Nat) (factor : Nat) : Nat :=
  max (ceil_div (hourOf t + (if t % nsPerHour ≠ 0 then 1 else 0)) factor) 1 * factor

/-- Models `round_for_cache(dt_range, fragment_hours)`: round the start down to a
fragment boundary inside its day, and the stop up from its day's midnight. -/
def round_for_cache (dt_range : DateTimeRange) (fragment_hours : Nat) : DateTimeRange :=
  ⟨dayStart dt_range.start_time + lower_hour_bound dt_range.start_time fragment_hours * nsPerHour,
   dayStart dt_range.stop_time + upper_hour_bound dt_range.stop_time fragment_hours * nsPerHour⟩

/-- The `while tend < cache_dt_range.stop_time` enumeration loop of
`_Cacheable.fragment_list`, with explicit fuel.  The fuel `stop - tend` always
suffices when `step ≥ 1` because each iteration advances `tend` by `step`;
with `step = 0` Python would loop forever, the model returns early. -/
def while_fragments (fuel tend stop step : Nat) : List Nat :=
  match fuel with
  | 0 => []
  | f + 1 => if tend < stop then tend :: while_fragments f (tend + step) stop step else []

/-- Models `_Cacheable.fragment_list(product, dt_range)` with
`fragment_hours(product) = f`.  Faithful to the source: the list built by the
`range(...)` comprehension is NOT replaced by the subsequent `while` loop, the
loop appends to it, so every fragment start is enumerated twice. -/
def fragment_list (f : Nat) (dt_range : DateTimeRange) : Nat × List Nat :=
  let cache_dt_range := round_for_cache dt_range.scale12 f
  let dt := f * nsPerHour
  let fragments := (List.range (ceil_div cache_dt_range.duration dt)).map
    (fun i => cache_dt_range.start_time + i * dt)
  (f, fragments ++ while_fragments (cache_dt_range.stop_time - cache_dt_range.start_time)
    cache_dt_range.start_time cache_dt_range.stop_time dt)

/-- The loop body of `group_contiguous_fragments`: `cur` is the run currently
being grown (Python `merged[-1]`), `last` its last element.  The source
condition `(merged[-1][-1] + duration * 1.01) > fragment` is the
cross-multiplied comparison `last * 100 + duration * 101 > fragment * 100`. -/
def gcfGo (duration : Nat) (cur : List Nat) (last : Nat) : List Nat → List (List Nat)
  | [] => [cur]
  | fragment :: rest =>
    if last * 100 + duration * 101 > fragment * 100 then
      gcfGo duration (cur ++ [fragment]) fragment rest
    else
      cur :: gcfGo duration [fragment] fragment rest

/-- Models `group_contiguous_fragments(fragments, duration)`: split the fragment
start list into runs, starting a new run whenever the gap to the previous
start reaches `duration * 1.01`. -/
def group_contiguous_fragments (fragments : List Nat) (duration : Nat) : List (List Nat) :=
  match fragments with
  | [] => []
  | fragment :: rest => gcfGo duration [fragment] fragment rest

/-- The optional secondary axis `y` of a `SpeasyVariable`: a numpy array that
is either one-dimensional or two-dimensional (row-aligned with the values). -/
inductive YAxis where
  | oneD : List ℤ → YAxis
  | twoD : List (List ℤ) → YAxis
  deriving DecidableEq

/-- Models `speasy.products.variable.SpeasyVariable`: a time vector, a row-aligned
value matrix, metadata, column labels and an optional secondary axis. -/
structure SpeasyVariable where
  time : List Nat
  values : List (List ℤ)
  meta : List (String × String)
  columns : List String
  y : Option YAxis
  deriving DecidableEq

/-- numpy shape equality `y.shape == values.shape`: `values` is always
two-dimensional after the constructor's reshape, so a one-dimensional `y`
never matches; a two-dimensional `y` matches when row count and row width
agree. -/
def y_shape_matches (ay : YAxis) (values : List (List ℤ)) : Bool :=
  match ay with
  | .oneD _ => false
  | .twoD rows =>
    rows.length == values.length &&
      (rows.headD []).length == (values.headD []).length

/-- Models `np.searchsorted(time, t, side='left')`: the first index whose entry is
`≥ t`, or `len(time)` when there is none (`List.findIdx` returns the length
in that case). -/
def searchsorted_left (time : List Nat) (t : Nat) : Nat :=
  time.findIdx (fun x => t ≤ x)

/-- Python slice-index normalization for a list of length `n`: negative
indices count from the end, and the result is clamped into `[0, n]`. -/
def pyNormIdx (n : Nat) (k : Int) : Nat :=
  if k < 0 then (k + n).toNat else min k.toNat n

/-- Python list/array slicing `l[i:j]` (step 1). -/
def pySlice {α : Type} (l : List α) (i j : Option Int) : List α :=
  let lo := match i with | none => 0 | some k => pyNormIdx l.length k
  let hi := match j with | none => l.length | some k => pyNormIdx l.length k
  (l.take hi).drop lo

/-- A value usable as a bound of a slice passed to
`SpeasyVariable.__getitem__`: a plain integer index or a datetime. -/
inductive SliceKey where
  | int : Int → SliceKey
  | datetime : Nat → SliceKey
  deriving DecidableEq

/-- A key passed to `SpeasyVariable.__getitem__`: a slice, a bare integer or
a bare datetime. -/
inductive PyKey where
  | slice : Option SliceKey → Option SliceKey → PyKey
  | int : Int → PyKey
  | datetime : Nat → PyKey
  deriving DecidableEq

/-- Models `_to_index(key, time)`: `None` stays `None`, an `int` is used as-is, a
datetime is located with `np.searchsorted(..., side='left')`. -/
def to_index (key : Option SliceKey) (time : List Nat) : Option Int :=
  match key with
  | none => none
  | some (.int i) => some i
  | some (.datetime t) => some (Int.ofNat (searchsorted_left time t))

/-- Models `SpeasyVariable.view(index_range)`: slice time, values and, when its shape
matches the values' shape, the secondary axis. -/
def SpeasyVariable.view (v : SpeasyVariable) (i j : Option Int) : SpeasyVariable :=
  { time := pySlice v.time i j
    values := pySlice v.values i j
    meta := v.meta
    columns := v.columns
    y := match v.y with
      | none => none
      | some ay =>
        if y_shape_matches ay v.values then
          match ay with
          | .oneD q => some (.oneD q)
          | .twoD rows => some (.twoD (pySlice rows i j))
        else some ay }

/-- Models `SpeasyVariable.__getitem__`: only a slice key produces a view; every
other key falls through the `isinstance` test and returns `None`. -/
def SpeasyVariable.getitem (v : SpeasyVariable) (key : PyKey) : Option SpeasyVariable :=
  match key with
  | .slice a b => some (v.view (to_index a v.time) (to_index b v.time))
  | _ => none

/-- Models `variable[start:stop]` with two datetime bounds, as used by the cache
orchestrators for fragment slicing and final trimming. -/
def SpeasyVariable.slice_dt (v : SpeasyVariable) (a b : Nat) : SpeasyVariable :=
  v.view (some (Int.ofNat (searchsorted_left v.time a)))
    (some (Int.ofNat (searchsorted_left v.time b)))

/-- Models `v.time[0]` (with a default for the empty case, which the merge pipeline
never reaches: it only consults first/last timestamps after filtering out
empty inputs). -/
def headTime (v : SpeasyVariable) : Nat := v.time.headD 0

/-- Models `v.time[-1]` (same remark as `headTime`). -/
def lastTime (v : SpeasyVariable) : Nat := v.time.getLastD 0

/-- Models `SpeasyVariable.__eq__`: metadata, columns, time and values are compared;
the secondary axis is NOT part of Python equality.  `list.remove` uses this
equality. -/
def varEq (a b : SpeasyVariable) : Bool :=
  a.meta == b.meta && a.columns == b.columns && a.time == b.time && a.values == b.values

/-- Insert `x` behind every already-sorted element whose first timestamp is
`≤` its own: the building block of a stable ascending sort. -/
def insert_sorted (x : SpeasyVariable) : List SpeasyVariable → List SpeasyVariable
  | [] => [x]
  | y :: ys => if headTime y ≤ headTime x then y :: insert_sorted x ys else x :: y :: ys

/-- Models `sorted_var_list.sort(key=lambda v: v.time[0])`: Python's sort is stable,
and a stable ascending sort is unique, so this insertion sort computes the
same list. -/
def sort_by_first_time (l : List SpeasyVariable) : List SpeasyVariable :=
  l.foldl (fun acc x => insert_sorted x acc) []

/-- The first removal loop of `merge`: the pairs are taken from slices of the
list made before the loop runs, while `list.remove` (remove the first
`__eq__`-equal element) mutates the list as the loop progresses. -/
def drop_covered_by_prev (l : List SpeasyVariable) : List SpeasyVariable :=
  (l.zip l.tail).foldl
    (fun acc pr =>
      if lastTime pr.2 ≤ lastTime pr.1 then acc.eraseP (fun w => varEq w pr.2) else acc)
    l

/-- The second removal loop of `merge`: drop `current` when its immediate
successor starts at the same timestamp and ends no earlier. -/
def drop_covered_by_next (l : List SpeasyVariable) : List SpeasyVariable :=
  (l.zip l.tail).foldl
    (fun acc pr =>
      if headTime pr.2 = headTime pr.1 ∧ lastTime pr.1 ≤ lastTime pr.2 then
        acc.eraseP (fun w => varEq w pr.1)
      else acc)
    l

/-- The complete filtering stage of `merge`: drop absent and empty inputs,
sort by first timestamp, then run the two removal loops. -/
def surviving_fragments (vars : List (Option SpeasyVariable)) : List SpeasyVariable :=
  drop_covered_by_next (drop_covered_by_prev
    (sort_by_first_time (((vars.filterMap id).filter (fun v => 0 < v.time.length)))))

/-- One entry of the `overlaps` list of `merge`:
`np.where(current.time >= nxt.time[0])[0][0] if current.time[-1] >= nxt.time[0] else -1`,
with `none` standing for `-1`. -/
def overlap_index (current nxt : SpeasyVariable) : Option Nat :=
  if headTime nxt ≤ lastTime current then
    some (current.time.findIdx (fun x => headTime nxt ≤ x))
  else none

/-- Models `len(r.time) if overlap == -1 else overlap`: how many leading samples of a
fragment are copied into the merged output. -/
def frag_len (r : SpeasyVariable) (overlap : Option Nat) : Nat :=
  match overlap with
  | none => r.time.length
  | some k => k

/-- The `overlaps` list: one entry per adjacent pair of surviving fragments. -/
def overlaps_list (l : List SpeasyVariable) : List (Option Nat) :=
  (l.zip l.tail).map (fun pr => overlap_index pr.1 pr.2)

/-- The rows copied from one fragment's secondary axis.  Only reached when
the first survivor's axis is two-dimensional and row-aligned, in which case
every fragment of the same product is too. -/
def ytake (r : SpeasyVariable) (k : Nat) : List (List ℤ) :=
  match r.y with
  | some (.twoD rows) => rows.take k
  | _ => []

/-- The copy stage of `merge`: allocate the output and copy the kept prefix of
every surviving fragment (`zip(sorted_var_list, overlaps + [-1])`).  Writing
`frag_len` rows at successive positions into a pre-allocated array of the
summed lengths is the same as concatenating the kept prefixes. -/
def assemble (l : List SpeasyVariable) : SpeasyVariable :=
  let pairs := l.zip (overlaps_list l ++ [none])
  { time := (pairs.map (fun pr => pr.1.time.take (frag_len pr.1 pr.2))).flatten
    values := (pairs.map (fun pr => pr.1.values.take (frag_len pr.1 pr.2))).flatten
    meta := (l.head?.map (fun v => v.meta)).getD []
    columns := (l.head?.map (fun v => v.columns)).getD []
    y := match l.head? with
      | none => none
      | some v0 =>
        match v0.y with
        | none => none
        | some ay =>
          if y_shape_matches ay v0.values then
            some (.twoD (pairs.map (fun pr => ytake pr.1 (frag_len pr.1 pr.2))).flatten)
          else some ay }

/-- Models `speasy.products.variable.merge`.  `Except.error ()` models the
`AttributeError` raised when every input is filtered out and the first input
is `None` (the empty-result branch reads the first input's `columns`).  The
astropy unit bookkeeping is not modelled: the embedded values carry no unit
attribute, which in Python makes the unit set empty and the step a no-op. -/
def merge (vars : List (Option SpeasyVariable)) : Except Unit (Option SpeasyVariable) :=
  match vars with
  | [] => .ok none
  | v0 :: _ =>
    match surviving_fragments vars with
    | [] =>
      match v0 with
      | none => .error ()
      | some w => .ok (some ⟨[], [], w.meta, w.columns, w.y⟩)
    | l => .ok (some (assemble l))

/-- Models `merge(data_chunks)[dt_range.start_time:dt_range.stop_time]`:
merge, then trim to the requested window with a datetime slice. -/
def mergeTrim (vars : List (Option SpeasyVariable)) (a b : Nat) :
    Except Unit (Option SpeasyVariable) :=
  match merge vars with
  | .error e => .error e
  | .ok none => .ok none
  | .ok (some m) => .ok (some (m.slice_dt a b))

deriving instance DecidableEq for Except

/-- Models `speasy.core.cache.CacheItem` (its module is not among the sources under
study).  Modelled from the spec: `CacheEntry = {payload, version}` of spec
section 3, a stored series fragment together with a version tag; a `none`
version means "always considered fresh".  `α` is the totally ordered version
type (an explicit version number for the versioned orchestrator). -/
structure CacheItem (α : Type) where
  data : SpeasyVariable
  version : Option α
  deriving DecidableEq

/-- Models `is_up_to_date(item, version)`:
`(item.version is None) or (item.version >= version)`. -/
def is_up_to_date {α : Type} [LinearOrder α] (item : CacheItem α) (version : α) : Bool :=
  match item.version with
  | none => true
  | some w => decide (version ≤ w)

/-- The cache contents seen by the versioned orchestrator, as a mapping from
fragment start to entry.  The real key is the string
`"{prefix}/{product}/{fragment.isoformat()}"`, which is injective in the
fragment start for one product, so fragment starts serve as keys here. -/
def VCache (α : Type) : Type := Nat → Option (CacheItem α)

/-- Store an entry under a fragment key (`_Cacheable.set_cache_entry`). -/
def set_cache_entry {α : Type} (cache : VCache α) (fragment : Nat) (entry : CacheItem α) :
    VCache α :=
  fun k => if k = fragment then some entry else cache k

/-- Models `_Cacheable.get_cache_entry`: the entry stored for a fragment, if any. -/
def get_cache_entry {α : Type} (cache : VCache α) (fragment : Nat) : Option (CacheItem α) :=
  cache fragment

/-- Models `_Cacheable.get_from_cache`: the entry's payload when the entry exists
and is up to date, `None` otherwise. -/
def get_from_cache {α : Type} [LinearOrder α] (cache : VCache α) (fragment : Nat)
    (version : α) : Option SpeasyVariable :=
  match get_cache_entry cache fragment with
  | some entry => if is_up_to_date entry version then some entry.data else none
  | none => none

/-- Models `_Cacheable.get_fragments_from_cache`: one batched read per fragment.  The
surrounding `cache.transact()` guarantees a consistent snapshot, which the
pure cache value models by construction. -/
def get_fragments_from_cache {α : Type} [LinearOrder α] (cache : VCache α)
    (fragments : List Nat) (version : α) : List (Option SpeasyVariable) :=
  fragments.map (fun fragment => get_from_cache cache fragment version)

/-- Models `_Cacheable.add_to_cache`: when the fetched variable is not `None`, store
the fragment-aligned slice `variable[fragment:fragment + duration]` under
every fragment key of the group, tagged with the given version; return the
variable unchanged. -/
def add_to_cache {α : Type} (varOpt : Option SpeasyVariable) (fragments : List Nat)
    (duration : Nat) (version : α) (cache : VCache α) :
    Option SpeasyVariable × VCache α :=
  match varOpt with
  | none => (none, cache)
  | some var =>
    (some var,
      fragments.foldl
        (fun c fragment =>
          set_cache_entry c fragment ⟨var.slice_dt fragment (fragment + duration), some version⟩)
        cache)

/-- The state threaded through the fetch stage of `Cacheable.__call__.wrapped`:
the data chunks collected so far, the evolving cache, and the log of
`get_data` invocations (each entry a requested `(start_time, stop_time)`). -/
structure FetchState (α : Type) where
  chunks : List (Option SpeasyVariable)
  cache : VCache α
  log : List (Nat × Nat)

/-- The fetch stage of the versioned orchestrator: one `get_data` call per
contiguous missing group over `[group[0], group[-1] + fragment_duration)`,
results written back per fragment by `add_to_cache`, and `None` results
filtered out of the chunk list. -/
def fetch_groups {α : Type} (get_data : Nat → Nat → Option SpeasyVariable) (version : α)
    (duration : Nat) (cache : VCache α) (groups : List (List Nat)) : FetchState α :=
  groups.foldl
    (fun st group =>
      match group with
      | [] => st
      | f0 :: _ =>
        let a := f0
        let b := group.getLastD 0 + duration
        let fetched := get_data a b
        let res := add_to_cache fetched group duration version st.cache
        { chunks := st.chunks ++ (match res.1 with | some v => [some v] | none => [])
          cache := res.2
          log := st.log ++ [(a, b)] })
    ⟨[], cache, []⟩

/-- The fragments reported as missing after the batched read:
`[fragment for f_data, fragment in zip(data_chunks, fragments) if f_data is None]`. -/
def missing_of (chunks : List (Option SpeasyVariable)) (fragments : List Nat) : List Nat :=
  (chunks.zip fragments).filterMap (fun p => if p.1.isNone then some p.2 else none)

/-- The result of one orchestrated lookup: the returned value (`Except` for a
raised exception), the cache after the lookup, and the `get_data` call log. -/
structure LookupResult where
  out : Except Unit (Option SpeasyVariable)
  cache : VCache Nat
  log : List (Nat × Nat)

/-- Models `Cacheable.__call__.wrapped`, the versioned fetch orchestrator, for one
product: `version` is the product's current version (`self._cache.version`
applied to the product; the default version function returns `0`), `f` its
`fragment_hours`, and `get_data` the wrapped fetch collaborator.  Mirrors the
source: plan the fragments, batch-read them, group the missing ones, fetch
each group once and write it back sliced, then merge every chunk and trim to
the requested window. -/
def wrapped (get_data : Nat → Nat → Option SpeasyVariable) (version : Nat) (f : Nat)
    (cache : VCache Nat) (start_time stop_time : Nat) (disable_cache : Bool) : LookupResult :=
  if disable_cache then
    { out := .ok (get_data start_time stop_time), cache := cache, log := [(start_time, stop_time)] }
  else
    let dt_range : DateTimeRange := ⟨start_time, stop_time⟩
    let fl := fragment_list f dt_range
    let fragment_duration := fl.1 * nsPerHour
    let data_chunks := get_fragments_from_cache cache fl.2 version
    let missing_fragments :=
      group_contiguous_fragments (missing_of data_chunks fl.2) fragment_duration
    let st := fetch_groups get_data version fragment_duration cache missing_fragments
    let all_chunks := data_chunks ++ st.chunks
    { out :=
        if all_chunks.length ≠ 0 then mergeTrim all_chunks dt_range.start_time dt_range.stop_time
        else .ok none
      cache := st.cache
      log := st.log }

/-- A cache entry of the unversioned (retention-based) orchestrator: there the
version field of `CacheItem` always holds the wall-clock datetime of the last
fetch or revalidation, never `None`. -/
structure UCacheItem where
  data : SpeasyVariable
  version : Nat
  deriving DecidableEq

/-- The cache contents seen by the unversioned orchestrator (fragment starts
as keys, as for `VCache`). -/
def UCache : Type := Nat → Option UCacheItem

/-- Store an entry under a fragment key in the unversioned cache. -/
def set_cache_entryU (cache : UCache) (fragment : Nat) (entry : UCacheItem) : UCache :=
  fun k => if k = fragment then some entry else cache k

/-- The missing fragments of the unversioned classification loop (the entries
appended to `missing_fragments` when `entry is None`).  The single source
loop appends to its three lists in fragment order, so each list equals one
pass over the fragments. -/
def u_missing (cache : UCache) (fragments : List Nat) : List Nat :=
  fragments.filter (fun fragment => (cache fragment).isNone)

/-- The chunks of fresh entries: `entry.data` for every fragment whose entry
satisfies `(entry.version + cache_retention) > datetime.utcnow()`. -/
def u_fresh_chunks (cache : UCache) (retention now : Nat) (fragments : List Nat) :
    List (Option SpeasyVariable) :=
  fragments.filterMap (fun fragment =>
    match cache fragment with
    | none => none
    | some entry => if now < entry.version + retention then some (some entry.data) else none)

/-- The maybe-stale `(fragment, entry)` pairs: an entry exists but its
retention window has elapsed. -/
def u_stale_pairs (cache : UCache) (retention now : Nat) (fragments : List Nat) :
    List (Nat × UCacheItem) :=
  fragments.filterMap (fun fragment =>
    match cache fragment with
    | none => none
    | some entry =>
      if now < entry.version + retention then none else some (fragment, entry))

/-- The state threaded through the unversioned fetch and revalidation stages. -/
structure UFetchState where
  chunks : List (Option SpeasyVariable)
  cache : UCache
  log : List (Nat × Nat × Option Nat)

/-- The missing-group fetch stage of `UnversionedProviderCache.__call__.wrapped`:
as in the versioned orchestrator, but entries are stamped with the current
wall-clock time.  `get_data` here also takes the optional `if_newer_than`
hint (`none` for plain group fetches). -/
def fetch_groupsU (get_data : Nat → Nat → Option Nat → Option SpeasyVariable) (now : Nat)
    (duration : Nat) (cache : UCache) (groups : List (List Nat)) : UFetchState :=
  groups.foldl
    (fun st group =>
      match group with
      | [] => st
      | f0 :: _ =>
        let a := f0
        let b := group.getLastD 0 + duration
        let fetched := get_data a b none
        let cache2 :=
          match fetched with
          | none => st.cache
          | some var =>
            group.foldl
              (fun c fragment =>
                set_cache_entryU c fragment ⟨var.slice_dt fragment (fragment + duration), now⟩)
              st.cache
        { chunks := st.chunks ++ (match fetched with | some v => [some v] | none => [])
          cache := cache2
          log := st.log ++ [(a, b, none)] })
    ⟨[], cache, []⟩

/-- The per-fragment revalidation loop over the maybe-stale entries.  A `None`
response bumps the stored version to `now` and reuses the entry's payload.  A
non-`None` response reaches `add_to_cache(data, fragment, ...)` with a BARE
datetime where a list of fragments is expected; iterating over it raises
`TypeError`, modelled as `Except.error ()`. -/
def revalidate_stale (get_data : Nat → Nat → Option Nat → Option SpeasyVariable) (now : Nat)
    (duration : Nat) (stale : List (Nat × UCacheItem)) (st : UFetchState) :
    Except Unit UFetchState :=
  stale.foldl
    (fun acc pe =>
      match acc with
      | .error e => .error e
      | .ok s =>
        match get_data pe.1 (pe.1 + duration) (some pe.2.version) with
        | none =>
          .ok { chunks := s.chunks ++ [some pe.2.data]
                cache := set_cache_entryU s.cache pe.1 ⟨pe.2.data, now⟩
                log := s.log ++ [(pe.1, pe.1 + duration, some pe.2.version)] }
        | some _ => .error ())
    (.ok st)

/-- The lookup state after the fresh-entry collection and missing-group fetch
stages of one unversioned lookup, just before revalidation: the fresh entries'
chunks followed by the fetched groups' chunks, with the fetch stage's cache
and call log. -/
def pre_revalidation_state (get_data : Nat → Nat → Option Nat → Option SpeasyVariable)
    (retention now : Nat) (f : Nat) (cache : UCache) (start_time stop_time : Nat) :
    UFetchState :=
  let fl := fragment_list f ⟨start_time, stop_time⟩
  let fragment_duration := fl.1 * nsPerHour
  let missing_groups :=
    group_contiguous_fragments (u_missing cache fl.2) fragment_duration
  let st := fetch_groupsU get_data now fragment_duration cache missing_groups
  { chunks := u_fresh_chunks cache retention now fl.2 ++ st.chunks
    cache := st.cache
    log := st.log }

/-- The chunk list, cache and call log produced by one unversioned lookup,
before the final merge (`Except.error` when the revalidation loop raised). -/
def wrappedU_parts (get_data : Nat → Nat → Option Nat → Option SpeasyVariable)
    (retention now : Nat) (f : Nat) (cache : UCache) (start_time stop_time : Nat) :
    Except Unit UFetchState :=
  let fl := fragment_list f ⟨start_time, stop_time⟩
  let fragment_duration := fl.1 * nsPerHour
  revalidate_stale get_data now fragment_duration (u_stale_pairs cache retention now fl.2)
    (pre_revalidation_state get_data retention now f cache start_time stop_time)

/-- The result of one unversioned lookup. -/
structure ULookupResult where
  out : Except Unit (Option SpeasyVariable)
  cache : UCache
  log : List (Nat × Nat × Option Nat)

/-- Models `UnversionedProviderCache.__call__.wrapped`, the retention-based
orchestrator: classify entries as missing / fresh / maybe-stale, fetch the
missing groups, revalidate the stale entries individually, then merge and
trim.  `now` models the wall clock (`datetime.utcnow()`; the source samples
it several times during one lookup, always within the same lookup instant). -/
def wrappedU (get_data : Nat → Nat → Option Nat → Option SpeasyVariable)
    (retention now : Nat) (f : Nat) (cache : UCache) (start_time stop_time : Nat)
    (disable_cache : Bool) : ULookupResult :=
  if disable_cache then
    { out := .ok (get_data start_time stop_time none), cache := cache
      log := [(start_time, stop_time, none)] }
  else
    match wrappedU_parts get_data retention now f cache start_time stop_time with
    | .error e => { out := .error e, cache := cache, log := [] }
    | .ok st =>
      { out :=
          if st.chunks.length ≠ 0 then mergeTrim st.chunks start_time stop_time else .ok none
        cache := st.cache
        log := st.log }

/-- Specification of the merged timestamp sequence, written from the spec's
words (section 4.4 step 4) for the refinement theorem: for each adjacent pair
`(current, next)` of surviving fragments, when they overlap keep of `current`
exactly the samples before the first index whose timestamp is `≥ next`'s
first timestamp, followed by the merge of the rest; with no overlap keep
`current` entirely; a final fragment is kept whole. -/
def spec_merged_times : List SpeasyVariable → List Nat
  | [] => []
  | [v] => v.time
  | cur :: nxt :: rest =>
    (if headTime nxt ≤ lastTime cur then
        cur.time.take (cur.time.findIdx (fun t => headTime nxt ≤ t))
      else cur.time) ++ spec_merged_times (nxt :: rest)

/-- Specification of the merged value rows, mirroring `spec_merged_times`
(the same row counts are kept, as the rows are time-aligned). -/
def spec_merged_values : List SpeasyVariable → List (List ℤ)
  | [] => []
  | [v] => v.values
  | cur :: nxt :: rest =>
    (if headTime nxt ≤ lastTime cur then
        cur.values.take (cur.time.findIdx (fun t => headTime nxt ≤ t))
      else cur.values) ++ spec_merged_values (nxt :: rest)

/-- A fragment key counts as a cache hit for a given version: an entry exists
and `is_up_to_date` holds (spec section 4.2). -/
def hitB (cache : VCache Nat) (version fragment : Nat) : Bool :=
  match cache fragment with
  | some entry => is_up_to_date entry version
  | none => false

/-- Whole hours as nanoseconds, for concrete scenarios. -/
def hoursNs (k : Nat) : Nat := k * nsPerHour

/-- A sample fragment for concrete scenarios: one column whose value at
timestamp `t` is `t + off` (distinct `off`s make samples traceable to their
fragment). -/
def sampleVar (ts : List Nat) (off : ℤ) : SpeasyVariable :=
  ⟨ts, ts.map (fun t => [(t : ℤ) + off]), [], [], none⟩

/-- Concrete merge input for the C1 counterexample: a fragment spanning
[0, 4]. -/
def cexA : SpeasyVariable := sampleVar [0, 1, 2, 3, 4] 0

/-- Concrete merge input for the C1 counterexample: a fragment nested in
`cexA`'s span. -/
def cexB : SpeasyVariable := sampleVar [1, 2] 100

/-- Concrete merge input for the C1 counterexample: a fragment also nested in
`cexA`'s span but outlasting `cexB`. -/
def cexC : SpeasyVariable := sampleVar [1, 2, 3] 200

/-- Two-fragment concrete input for the C1 witness (mutually consistent with
`witQ` on the shared span). -/
def witP : SpeasyVariable := sampleVar [0, 1, 2] 0

/-- Second fragment of the C1 witness pair. -/
def witQ : SpeasyVariable := sampleVar [1, 2, 3] 0

/-- Fragment A of the claimed merge-precedence example: samples at
timestamps 0..9. -/
def mpA : SpeasyVariable := sampleVar [0, 1, 2, 3, 4, 5, 6, 7, 8, 9] 0

/-- Fragment B of the claimed merge-precedence example: samples at
timestamps 5..14, offset 100 to make its rows recognizable. -/
def mpB : SpeasyVariable := sampleVar [5, 6, 7, 8, 9, 10, 11, 12, 13, 14] 100

/-- The C3 counterexample's pre-existing cached payload for the fragment
starting at hour 0: its timestamps stray beyond its own fragment's range
(hours 26 and 49 lie in later fragments). -/
def strayHit : SpeasyVariable := sampleVar [hoursNs 0, hoursNs 26, hoursNs 49] 0

/-- The C3 counterexample's collaborator response for the missing group
[24h, 72h): well-behaved data inside the requested range. -/
def groupData : SpeasyVariable := sampleVar [hoursNs 25, hoursNs 47, hoursNs 50] 1000

/-- The C3 counterexample's initial cache: one entry, for the fragment
starting at hour 0, holding `strayHit` with an up-to-date version. -/
def cacheC3 : VCache Nat := fun k => if k = 0 then some ⟨strayHit, some 0⟩ else none

/-- The C3 counterexample's fetch collaborator: returns `groupData` for the
one missing group and nothing elsewhere. -/
def get_dataC3 : Nat → Nat → Option SpeasyVariable :=
  fun a b => if a = hoursNs 24 ∧ b = hoursNs 72 then some groupData else none

/-- The first C3 lookup: request [1h, 54h) with 24-hour fragments, version 0. -/
def firstLookupC3 : LookupResult :=
  wrapped get_dataC3 0 24 cacheC3 (hoursNs 1) (hoursNs 54) false

/-- The second, identical C3 lookup, from the cache the first one left. -/
def secondLookupC3 : LookupResult :=
  wrapped get_dataC3 0 24 firstLookupC3.cache (hoursNs 1) (hoursNs 54) false

/-- A fully populated cache for the C3 witness: every fragment key holds an
up-to-date empty payload. -/
def fullCacheC3 : VCache Nat := fun _ => some ⟨sampleVar [] 0, some 5⟩

/-- The stale entry of the C6 witness. -/
def staleEntryC6 : UCacheItem := ⟨sampleVar [hoursNs 2, hoursNs 3] 0, 10⟩

/-- The C6 witness cache: one entry, stored at wall-clock 10, for the fragment
starting at hour 0. -/
def cacheC6 : UCache := fun k => if k = 0 then some staleEntryC6 else none

/-- The C6 witness collaborator: no new data for any request. -/
def get_dataC6 : Nat → Nat → Option Nat → Option SpeasyVariable := fun _ _ _ => none

/-- The C7 witness/counterexample first input: an empty series that still
carries metadata, columns and a secondary axis. -/
def emptyCarrier : SpeasyVariable :=
  ⟨[], [], [("UNITS", "nT")], ["bx"], some (.oneD [1, 2])⟩

/-- The grouping criterion as a relation between successive fragment starts:
`b` joins `a`'s run when `a + duration * 1.01 > b`, in cross-multiplied
form. -/
def closeEnough (duration a b : Nat) : Prop :=
  b * 100 < a * 100 + duration * 101

/-- The cache view of an unversioned-lookup result at one key (`none` when the
lookup raised). -/
def partsCacheAt (r : Except Unit UFetchState) (k : Nat) : Option (Option UCacheItem) :=
  match r with
  | .ok st => some (st.cache k)
  | .error _ => none

/-- The chunk list handed to the merger by an unversioned lookup (empty when
the lookup raised). -/
def partsChunks (r : Except Unit UFetchState) : List (Option SpeasyVariable) :=
  match r with
  | .ok st => st.chunks
  | .error _ => []


theorem gcfGo_flatten (d : Nat) (cur : List Nat) (last : Nat) (rest : List Nat) :
    (gcfGo d cur last rest).flatten = cur ++ rest := by
  induction rest generalizing cur last with
  | nil => simp [gcfGo]
  | cons f rest ih =>
    simp only [gcfGo]
    split
    · rw [ih]; simp
    · simp only [List.flatten_cons, ih]; simp

theorem gcfGo_ne_nil (d : Nat) (cur : List Nat) (last : Nat) (rest : List Nat)
    (hcur : cur ≠ []) : ∀ g ∈ gcfGo d cur last rest, g ≠ [] := by
  induction rest generalizing cur last with
  | nil => intro g hg; simp [gcfGo] at hg; simpa [hg]
  | cons f rest ih =>
    intro g hg
    simp only [gcfGo] at hg
    split at hg
    · exact ih _ _ (by simp) g hg
    · rcases List.mem_cons.1 hg with h | h
      · simpa [h]
      · exact ih _ _ (by simp) g h

theorem gcfGo_chain_within (d : Nat) (cur : List Nat) (last : Nat) (rest : List Nat)
    (hchain : List.Chain' (closeEnough d) cur) (hlast : cur.getLast? = some last) :
    ∀ g ∈ gcfGo d cur last rest, List.Chain' (closeEnough d) g := by
  induction rest generalizing cur last with
  | nil => intro g hg; simp [gcfGo] at hg; simpa [hg]
  | cons f rest ih =>
    intro g hg
    simp only [gcfGo] at hg
    split at hg
    · refine ih (cur ++ [f]) f ?_ (by simp) g hg
      refine List.chain'_append.2 ⟨hchain, List.chain'_singleton f, ?_⟩
      intro x hx y hy
      rw [hlast] at hx
      simp at hx hy
      subst hx; subst hy
      assumption
    · rcases List.mem_cons.1 hg with h | h
      · simpa [h]
      · exact ih [f] f (List.chain'_singleton f) (by simp) g h

theorem gcfGo_cons_head (d : Nat) (cur : List Nat) (last : Nat) (rest : List Nat) :
    ∃ t gs, gcfGo d cur last rest = (cur ++ t) :: gs := by
  induction rest generalizing cur last with
  | nil => exact ⟨[], [], by simp [gcfGo]⟩
  | cons f rest ih =>
    simp only [gcfGo]
    split
    · obtain ⟨t, gs, h⟩ := ih (cur ++ [f]) f
      exact ⟨[f] ++ t, gs, by simpa using h⟩
    · exact ⟨[], gcfGo d [f] f rest, by simp⟩

theorem gcfGo_chain_between (d : Nat) (cur : List Nat) (last : Nat) (rest : List Nat)
    (hlast : cur.getLast? = some last) :
    List.Chain'
      (fun g1 g2 => ∀ a b, g1.getLast? = some a → g2.head? = some b → ¬ closeEnough d a b)
      (gcfGo d cur last rest) := by
  induction rest generalizing cur last with
  | nil => simp [gcfGo]
  | cons f rest ih =>
    simp only [gcfGo]
    split
    · exact ih (cur ++ [f]) f (by simp)
    · rename_i hnot
      obtain ⟨t, gs, h⟩ := gcfGo_cons_head d [f] f rest
      rw [h]
      refine List.chain'_cons.2 ⟨?_, by rw [← h]; exact ih [f] f (by simp)⟩
      intro a b ha hb
      rw [hlast] at ha
      simp at ha hb
      subst ha; subst hb
      simpa [closeEnough] using hnot

/-- C9: concatenating, in order, the runs returned by
`group_contiguous_fragments` yields exactly the input list (so every fragment
start lands in exactly one run and relative order is preserved), and every
run is non-empty.  Proved for every duration, in particular every positive
one. -/
theorem claim_C9_grouping_partitions (fragments : List Nat) (duration : Nat) :
    (group_contiguous_fragments fragments duration).flatten = fragments ∧
    ∀ g ∈ group_contiguous_fragments fragments duration, g ≠ [] := by
  cases fragments with
  | nil => simp [group_contiguous_fragments]
  | cons f rest =>
    constructor
    · simpa using gcfGo_flatten duration [f] f rest
    · exact gcfGo_ne_nil duration [f] f rest (by simp)

/-- C4 (amended): two successive fragment starts land in the same run exactly
when the gap between them is STRICTLY below `1.01 × fragment_duration`
(`closeEnough`): within every run each adjacent pair satisfies the strict
bound, and at every boundary between adjacent runs the pair formed by the
earlier run's last start and the later run's first start violates it.  The
claimed examples hold: hour offsets [0,24,48] with 24-hour fragments form the
single run [[0,24,48]], and [0,48] forms the two runs [[0],[48]]. -/
theorem claim_C4_grouping_tolerance (fragments : List Nat) (duration : Nat) :
    (∀ g ∈ group_contiguous_fragments fragments duration,
      List.Chain' (closeEnough duration) g) ∧
    List.Chain'
      (fun g1 g2 => ∀ a b, g1.getLast? = some a → g2.head? = some b →
        ¬ closeEnough duration a b)
      (group_contiguous_fragments fragments duration) ∧
    group_contiguous_fragments [0, hoursNs 24, hoursNs 48] (hoursNs 24) =
      [[0, hoursNs 24, hoursNs 48]] ∧
    group_contiguous_fragments [0, hoursNs 48] (hoursNs 24) = [[0], [hoursNs 48]] := by
  refine ⟨?_, ?_, by decide, by decide⟩
  · cases fragments with
    | nil => simp [group_contiguous_fragments]
    | cons f rest =>
      exact gcfGo_chain_within duration [f] f rest (List.chain'_singleton f) (by simp)
  · cases fragments with
    | nil => simp [group_contiguous_fragments]
    | cons f rest => exact gcfGo_chain_between duration [f] f rest (by simp)

/-- C4 counterexample: at a gap exactly equal to `1.01 × fragment_duration`
(24-hour fragments, second start at 24.24 hours = 87264 seconds) the claim as
stated puts both starts in the same run, but the code starts a new run: the
source comparison is strict. -/
theorem claim_C4_counterexample :
    group_contiguous_fragments [0, 87264000000000] 86400000000000 =
      [[0], [87264000000000]] ∧
    (87264000000000 - 0) * 100 ≤ 86400000000000 * 101 := by
  constructor
  · decide
  · decide

/-- C2: evaluating `fragment_list` on the request [1h, 10h) of 1970-01-01
with 24-hour fragments.  The planner rounds to the single fragment starting
at midnight, but the returned list contains that start TWICE — the list built
by the `range(...)` comprehension is appended to (not replaced) by the
`while` loop — contradicting the claim that each fragment start occurs
exactly once. -/
theorem claim_C2_fragment_enumerated_twice :
    fragment_list 24 ⟨hoursNs 1, hoursNs 10⟩ = (24, [0, 0]) ∧
    (fragment_list 24 ⟨hoursNs 1, hoursNs 10⟩).2.count 0 = 2 := by
  constructor
  · decide
  · decide

/-- C8: in the versioned orchestrator's batched read, a fragment key is a hit
(its cached payload is returned) exactly when an entry exists for it and the
entry's version is `none` or at least the current version; otherwise the read
yields `None` (missing).  The second conjunct records that the batched read
performs exactly this per-fragment read for every fragment key. -/
theorem claim_C8_hit_classification {α : Type} [LinearOrder α] (cache : VCache α)
    (version : α) (fragment : Nat) (d : SpeasyVariable) (fragments : List Nat) :
    (get_from_cache cache fragment version = some d ↔
      ∃ e, cache fragment = some e ∧ d = e.data ∧
        (e.version = none ∨ ∃ w, e.version = some w ∧ version ≤ w)) ∧
    get_fragments_from_cache cache fragments version =
      fragments.map (fun fr => get_from_cache cache fr version) := by
  refine ⟨?_, rfl⟩
  unfold get_from_cache get_cache_entry
  cases h : cache fragment with
  | none => simp
  | some e =>
    cases hv : e.version with
    | none => simp [is_up_to_date, hv, eq_comm]
    | some w =>
      by_cases hle : version ≤ w
      · simp [is_up_to_date, hv, hle, eq_comm]
      · simp [is_up_to_date, hv, hle]

/-- C10: `SpeasyVariable.__getitem__` produces a sub-series view exactly for
slice keys; every non-slice key (a bare int, a bare datetime) yields `None`
rather than a sample or an error. -/
theorem claim_C10_getitem_only_slices (v : SpeasyVariable) (key : PyKey) :
    (∃ w, v.getitem key = some w) ↔ ∃ a b, key = PyKey.slice a b := by
  cases key <;> simp [SpeasyVariable.getitem]

/-- C7 counterexample: a non-empty input collection whose fragments are all
absent — here the single absent input — does not produce an empty series: the
empty-result branch reads `columns` on the first input, which is `None`, and
raises `AttributeError` (modelled by `Except.error`). -/
theorem claim_C7_counterexample : merge [none] = .error () := rfl

/-- C7 (amended): provided the FIRST input is present (possibly empty), a
non-empty input collection in which every fragment is absent or empty merges
to an explicitly empty series that carries the first input's metadata,
columns and secondary axis, rather than a null result. -/
theorem claim_C7_empty_merge_carries_shape (vars : List (Option SpeasyVariable))
    (w : SpeasyVariable) (hhead : vars.head? = some (some w))
    (hempty : ∀ v ∈ vars, v = none ∨ ∃ x, v = some x ∧ x.time = []) :
    merge vars = .ok (some ⟨[], [], w.meta, w.columns, w.y⟩) := by
  cases vars with
  | nil => simp at hhead
  | cons v0 rest =>
    simp only [List.head?_cons, Option.some.injEq] at hhead
    subst hhead
    have hfil : ((some w :: rest).filterMap id).filter (fun v => 0 < v.time.length) = [] := by
      rw [List.filter_eq_nil_iff]
      intro a ha
      rw [List.mem_filterMap] at ha
      obtain ⟨ov, hov, hid⟩ := ha
      rcases hempty ov hov with h | ⟨x, hx, ht⟩
      · subst h; simp at hid
      · subst hx
        simp only [id_eq, Option.some.injEq] at hid
        subst hid
        simp [ht]
    have hsurv : surviving_fragments (some w :: rest) = [] := by
      unfold surviving_fragments
      rw [hfil]
      rfl
    unfold merge
    rw [hsurv]

/-- C7 witness: the amended theorem applied to the concrete collection
[empty series with metadata, absent]. -/
theorem claim_C7_witness :
    merge [some emptyCarrier, none] =
      .ok (some ⟨[], [], emptyCarrier.meta, emptyCarrier.columns, emptyCarrier.y⟩) :=
  claim_C7_empty_merge_carries_shape [some emptyCarrier, none] emptyCarrier rfl
    (by
      intro v hv
      rcases List.mem_cons.1 hv with h | h
      · exact Or.inr ⟨emptyCarrier, h, rfl⟩
      · simp only [List.mem_singleton] at h
        exact Or.inl h)

theorem mem_insert_sorted (x y : SpeasyVariable) (l : List SpeasyVariable) :
    y ∈ insert_sorted x l ↔ y = x ∨ y ∈ l := by
  induction l with
  | nil => simp [insert_sorted]
  | cons z zs ih =>
    simp only [insert_sorted]
    split
    · simp only [List.mem_cons, ih]
      tauto
    · simp [List.mem_cons]

theorem mem_sort_by_first_time (l : List SpeasyVariable) (y : SpeasyVariable) :
    y ∈ sort_by_first_time l ↔ y ∈ l := by
  suffices h : ∀ acc, y ∈ l.foldl (fun acc x => insert_sorted x acc) acc ↔ y ∈ acc ∨ y ∈ l by
    simpa [sort_by_first_time] using h []
  induction l with
  | nil => simp
  | cons x xs ih =>
    intro acc
    simp only [List.foldl_cons]
    rw [ih]
    simp only [mem_insert_sorted, List.mem_cons]
    tauto

theorem foldl_eraseP_sublist {β : Type} (cond : β → Bool) (q : β → SpeasyVariable → Bool)
    (ps : List β) (l : List SpeasyVariable) :
    List.Sublist (ps.foldl (fun acc p => if cond p then acc.eraseP (q p) else acc) l) l := by
  induction ps generalizing l with
  | nil => exact List.Sublist.refl l
  | cons p ps ih =>
    refine (ih _).trans ?_
    dsimp only
    split
    · exact List.eraseP_sublist _
    · exact List.Sublist.refl l

theorem drop_covered_by_prev_sublist (l : List SpeasyVariable) :
    List.Sublist (drop_covered_by_prev l) l := by
  unfold drop_covered_by_prev
  have h := foldl_eraseP_sublist
    (fun pr : SpeasyVariable × SpeasyVariable => decide (lastTime pr.2 ≤ lastTime pr.1))
    (fun pr w => varEq w pr.2) (l.zip l.tail) l
  simpa using h

theorem drop_covered_by_next_sublist (l : List SpeasyVariable) :
    List.Sublist (drop_covered_by_next l) l := by
  unfold drop_covered_by_next
  have h := foldl_eraseP_sublist
    (fun pr : SpeasyVariable × SpeasyVariable =>
      decide (headTime pr.2 = headTime pr.1 ∧ lastTime pr.1 ≤ lastTime pr.2))
    (fun pr w => varEq w pr.1) (l.zip l.tail) l
  simpa using h

theorem surviving_sublist (vars : List (Option SpeasyVariable)) :
    List.Sublist (surviving_fragments vars)
      (sort_by_first_time ((vars.filterMap id).filter (fun v => 0 < v.time.length))) :=
  (drop_covered_by_next_sublist _).trans (drop_covered_by_prev_sublist _)

theorem mem_surviving (vars : List (Option SpeasyVariable)) (x : SpeasyVariable)
    (hx : x ∈ surviving_fragments vars) : some x ∈ vars ∧ 0 < x.time.length := by
  have h1 : x ∈ sort_by_first_time ((vars.filterMap id).filter (fun v => 0 < v.time.length)) :=
    (surviving_sublist vars).mem hx
  rw [mem_sort_by_first_time] at h1
  rw [List.mem_filter] at h1
  rw [List.mem_filterMap] at h1
  obtain ⟨⟨ov, hov, hid⟩, hlen⟩ := h1
  simp only [id_eq] at hid
  subst hid
  exact ⟨hov, by simpa using hlen⟩

theorem assemble_time_eq_spec (l : List SpeasyVariable) :
    (assemble l).time = spec_merged_times l := by
  induction l with
  | nil => rfl
  | cons cur rest ih =>
    cases rest with
    | nil => simp [assemble, overlaps_list, spec_merged_times, frag_len]
    | cons nxt rest2 =>
      have step : (assemble (cur :: nxt :: rest2)).time =
          cur.time.take (frag_len cur (overlap_index cur nxt)) ++
            (assemble (nxt :: rest2)).time := rfl
      rw [step, ih]
      by_cases hc : headTime nxt ≤ lastTime cur
      · simp [spec_merged_times, overlap_index, frag_len, hc]
      · simp [spec_merged_times, overlap_index, frag_len, hc]

theorem assemble_values_eq_spec (l : List SpeasyVariable)
    (hal : ∀ v ∈ l, v.values.length = v.time.length) :
    (assemble l).values = spec_merged_values l := by
  induction l with
  | nil => rfl
  | cons cur rest ih =>
    have hcur : cur.values.length = cur.time.length := hal cur (by simp)
    cases rest with
    | nil =>
      simp [assemble, overlaps_list, spec_merged_values, frag_len, ← hcur]
    | cons nxt rest2 =>
      have step : (assemble (cur :: nxt :: rest2)).values =
          cur.values.take (frag_len cur (overlap_index cur nxt)) ++
            (assemble (nxt :: rest2)).values := rfl
      rw [step, ih (fun v hv => hal v (List.mem_cons_of_mem cur hv))]
      by_cases hc : headTime nxt ≤ lastTime cur
      · simp [spec_merged_values, overlap_index, frag_len, hc]
      · simp [spec_merged_values, overlap_index, frag_len, hc, ← hcur]

theorem merge_time_eq_spec (vars : List (Option SpeasyVariable)) (m : SpeasyVariable)
    (h : merge vars = .ok (some m)) :
    m.time = spec_merged_times (surviving_fragments vars) := by
  cases vars with
  | nil => simp [merge] at h
  | cons v0 rest =>
    unfold merge at h
    cases hs : surviving_fragments (v0 :: rest) with
    | nil =>
      rw [hs] at h
      cases v0 with
      | none => simp at h
      | some w =>
        simp only [Except.ok.injEq, Option.some.injEq] at h
        subst h
        simp [spec_merged_times]
    | cons x xs =>
      rw [hs] at h
      simp only [Except.ok.injEq, Option.some.injEq] at h
      subst h
      exact assemble_time_eq_spec (x :: xs)

theorem merge_values_eq_spec (vars : List (Option SpeasyVariable)) (m : SpeasyVariable)
    (haligned : ∀ v, some v ∈ vars → v.values.length = v.time.length)
    (h : merge vars = .ok (some m)) :
    m.values = spec_merged_values (surviving_fragments vars) := by
  cases vars with
  | nil => simp [merge] at h
  | cons v0 rest =>
    unfold merge at h
    cases hs : surviving_fragments (v0 :: rest) with
    | nil =>
      rw [hs] at h
      cases v0 with
      | none => simp at h
      | some w =>
        simp only [Except.ok.injEq, Option.some.injEq] at h
        subst h
        simp [spec_merged_values]
    | cons x xs =>
      rw [hs] at h
      simp only [Except.ok.injEq, Option.some.injEq] at h
      subst h
      exact assemble_values_eq_spec (x :: xs)
        (fun v hv => haligned v (mem_surviving (v0 :: rest) v (hs ▸ hv)).1)

/-- C5: whenever `merge` returns a series from inputs with row-aligned values
(the `SpeasyVariable` constructor enforces `len(time) == len(data)`), its
timestamps and value rows are exactly those described by the spec's per-pair
seam rule over the surviving fragments: each surviving fragment contributes
its samples strictly before the first index reaching the next fragment's
first timestamp when the two overlap, and all of its samples otherwise.  The
final conjunct is the claimed concrete example: fragment A over timestamps
0..9 and fragment B over 5..14 (B's rows offset by 100) merge into A's rows
before timestamp 5 followed by all of B's rows — A's samples at and after 5
are discarded. -/
theorem claim_C5_seam_ownership (vars : List (Option SpeasyVariable)) (M : SpeasyVariable)
    (haligned : ∀ v, some v ∈ vars → v.values.length = v.time.length)
    (h : merge vars = .ok (some M)) :
    M.time = spec_merged_times (surviving_fragments vars) ∧
    M.values = spec_merged_values (surviving_fragments vars) ∧
    merge [some mpA, some mpB] =
      .ok (some ⟨[0, 1, 2, 3, 4, 5, 6, 7, 8, 9, 10, 11, 12, 13, 14],
        [[0], [1], [2], [3], [4], [105], [106], [107], [108], [109], [110], [111], [112],
          [113], [114]], [], [], none⟩) :=
  ⟨merge_time_eq_spec vars M h, merge_values_eq_spec vars M haligned h, by decide⟩

/-- C5 witness: the theorem applied to the concrete example inputs. -/
theorem claim_C5_witness :
    ([0, 1, 2, 3, 4, 5, 6, 7, 8, 9, 10, 11, 12, 13, 14] : List Nat) =
      spec_merged_times (surviving_fragments [some mpA, some mpB]) :=
  (claim_C5_seam_ownership [some mpA, some mpB]
    ⟨[0, 1, 2, 3, 4, 5, 6, 7, 8, 9, 10, 11, 12, 13, 14],
      [[0], [1], [2], [3], [4], [105], [106], [107], [108], [109], [110], [111], [112],
        [113], [114]], [], [], none⟩
    (by
      intro v hv
      rcases List.mem_cons.1 hv with h | h
      · cases h; decide
      · simp only [List.mem_singleton, Option.some.injEq] at h
        cases h; decide)
    (by decide)).1

theorem mem_take_findIdx_false (p : Nat → Bool) (l : List Nat) (t : Nat)
    (ht : t ∈ l.take (l.findIdx p)) : p t = false := by
  induction l with
  | nil => simp at ht
  | cons x xs ih =>
    rw [List.findIdx_cons] at ht
    cases hp : p x
    · rw [hp] at ht
      simp only [cond_false, List.take_succ_cons] at ht
      rcases List.mem_cons.1 ht with h | h
      · subst h; exact hp
      · exact ih h
    · rw [hp] at ht
      simp at ht

theorem mem_take_findIdx_of_lt (l : List Nat) (hs : List.Pairwise (· < ·) l) (t b : Nat)
    (ht : t ∈ l) (hlt : t < b) : t ∈ l.take (l.findIdx (fun x => decide (b ≤ x))) := by
  induction l with
  | nil => simp at ht
  | cons x xs ih =>
    rw [List.findIdx_cons]
    rcases List.mem_cons.1 ht with h | h
    · subst h
      have hdec : (decide (b ≤ t)) = false := by simp; omega
      rw [hdec]
      simp only [cond_false, List.take_succ_cons]
      exact List.mem_cons_self _ _
    · have hx : x < t := (List.pairwise_cons.1 hs).1 t h
      have hdec : (decide (b ≤ x)) = false := by simp; omega
      rw [hdec]
      simp only [cond_false, List.take_succ_cons]
      exact List.mem_cons_of_mem x (ih (List.pairwise_cons.1 hs).2 h)

theorem getLastD_mem_of_ne (l : List Nat) (d : Nat) (hl : l ≠ []) : l.getLastD d ∈ l := by
  induction l generalizing d with
  | nil => simp at hl
  | cons x xs ih =>
    cases hxs : xs with
    | nil => simp
    | cons y ys =>
      rw [List.getLastD_cons]
      subst hxs
      exact List.mem_cons_of_mem x (ih x (by simp))

theorem mem_le_getLastD (l : List Nat) (d : Nat) (hs : List.Pairwise (· < ·) l) (t : Nat)
    (ht : t ∈ l) : t ≤ l.getLastD d := by
  induction l generalizing d with
  | nil => simp at ht
  | cons x xs ih =>
    rw [List.getLastD_cons]
    rcases List.mem_cons.1 ht with h | h
    · subst h
      cases hxs : xs with
      | nil => simp
      | cons y ys =>
        have hne : xs ≠ [] := by simp [hxs]
        have hmem : xs.getLastD t ∈ xs := getLastD_mem_of_ne xs t hne
        have hlt := (List.pairwise_cons.1 hs).1 _ hmem
        rw [← hxs]
        omega
    · exact ih x (List.pairwise_cons.1 hs).2 h

theorem headD_le_mem (l : List Nat) (d : Nat) (hs : List.Pairwise (· < ·) l) (t : Nat)
    (ht : t ∈ l) : l.headD d ≤ t := by
  cases l with
  | nil => simp at ht
  | cons x xs =>
    rcases List.mem_cons.1 ht with h | h
    · simp [h]
    · have := (List.pairwise_cons.1 hs).1 t h
      simp only [List.headD_cons]
      omega

theorem spec_merged_mem (l : List SpeasyVariable) (t : Nat)
    (ht : t ∈ spec_merged_times l) : ∃ v ∈ l, t ∈ v.time := by
  induction l with
  | nil => simp [spec_merged_times] at ht
  | cons cur rest ih =>
    cases rest with
    | nil => exact ⟨cur, by simp, by simpa [spec_merged_times] using ht⟩
    | cons nxt rest2 =>
      simp only [spec_merged_times] at ht
      rcases List.mem_append.1 ht with h | h
      · refine ⟨cur, by simp, ?_⟩
        split at h
        · exact List.take_subset _ _ h
        · exact h
      · obtain ⟨v, hv, hvt⟩ := ih h
        exact ⟨v, List.mem_cons_of_mem _ hv, hvt⟩

theorem spec_merged_pairwise (l : List SpeasyVariable)
    (hsorted : ∀ v ∈ l, List.Pairwise (· < ·) v.time)
    (hheads : List.Pairwise (fun u v => headTime u ≤ headTime v) l) :
    List.Pairwise (· < ·) (spec_merged_times l) := by
  induction l with
  | nil => simp [spec_merged_times]
  | cons cur rest ih =>
    cases rest with
    | nil => simpa [spec_merged_times] using hsorted cur (by simp)
    | cons nxt rest2 =>
      simp only [spec_merged_times]
      rw [List.pairwise_append]
      refine ⟨?_, ih (fun v hv => hsorted v (List.mem_cons_of_mem _ hv)) hheads.of_cons, ?_⟩
      · have hc := hsorted cur (by simp)
        split
        · exact hc.sublist (List.take_sublist _ _)
        · exact hc
      · intro a ha b hb
        have hb2 : headTime nxt ≤ b := by
          obtain ⟨w, hw, hbw⟩ := spec_merged_mem _ _ hb
          have h1 : headTime w ≤ b := by
            have := headD_le_mem w.time 0 (hsorted w (List.mem_cons_of_mem _ hw)) b hbw
            simpa [headTime] using this
          have h2 : headTime nxt ≤ headTime w := by
            rcases List.mem_cons.1 hw with h | h
            · subst h; exact le_refl _
            · exact (List.pairwise_cons.1 hheads.of_cons).1 w h
          omega
        have ha2 : a < headTime nxt := by
          split at ha
          · have hfalse := mem_take_findIdx_false _ _ _ ha
            simp only [decide_eq_false_iff_not, not_le] at hfalse
            exact hfalse
          · rename_i hno
            have hle : a ≤ lastTime cur := by
              have := mem_le_getLastD cur.time 0 (hsorted cur (by simp)) a ha
              simpa [lastTime] using this
            omega
        omega

theorem insert_sorted_pairwise (x : SpeasyVariable) (l : List SpeasyVariable)
    (h : List.Pairwise (fun u v => headTime u ≤ headTime v) l) :
    List.Pairwise (fun u v => headTime u ≤ headTime v) (insert_sorted x l) := by
  induction l with
  | nil => simp [insert_sorted]
  | cons z zs ih =>
    simp only [insert_sorted]
    split
    · rename_i hz
      rw [List.pairwise_cons] at h
      rw [List.pairwise_cons]
      refine ⟨?_, ih h.2⟩
      intro b hb
      rw [mem_insert_sorted] at hb
      rcases hb with hb | hb
      · subst hb; exact hz
      · exact h.1 b hb
    · rename_i hz
      push_neg at hz
      rw [List.pairwise_cons]
      refine ⟨?_, h⟩
      intro b hb
      rcases List.mem_cons.1 hb with hb | hb
      · subst hb; omega
      · have := (List.pairwise_cons.1 h).1 b hb
        omega

theorem sort_by_first_time_pairwise (l : List SpeasyVariable) :
    List.Pairwise (fun u v => headTime u ≤ headTime v) (sort_by_first_time l) := by
  suffices h : ∀ acc, List.Pairwise (fun u v => headTime u ≤ headTime v) acc →
      List.Pairwise (fun u v => headTime u ≤ headTime v)
        (l.foldl (fun acc x => insert_sorted x acc) acc) by
    exact h [] (by simp)
  induction l with
  | nil => intro acc h; simpa
  | cons x xs ih =>
    intro acc h
    exact ih _ (insert_sorted_pairwise x acc h)

theorem surviving_pairwise_heads (vars : List (Option SpeasyVariable)) :
    List.Pairwise (fun u v => headTime u ≤ headTime v) (surviving_fragments vars) :=
  (sort_by_first_time_pairwise _).sublist (surviving_sublist vars)

theorem take_searchsorted_mem (l : List Nat) (hs : List.Pairwise (· < ·) l) (b t : Nat) :
    t ∈ l.take (searchsorted_left l b) ↔ t ∈ l ∧ t < b := by
  constructor
  · intro h
    refine ⟨List.take_subset _ _ h, ?_⟩
    have hfalse := mem_take_findIdx_false _ _ _ h
    simp only [decide_eq_false_iff_not, not_le] at hfalse
    exact hfalse
  · rintro ⟨h1, h2⟩
    exact mem_take_findIdx_of_lt l hs t b h1 h2

theorem searchsorted_le_length (l : List Nat) (b : Nat) :
    searchsorted_left l b ≤ l.length := by
  induction l with
  | nil => simp [searchsorted_left]
  | cons x xs ih =>
    unfold searchsorted_left at ih ⊢
    rw [List.findIdx_cons]
    cases hp : decide (b ≤ x)
    · simpa using Nat.succ_le_succ ih
    · simp

theorem slice_sorted_mem (l : List Nat) (hs : List.Pairwise (· < ·) l) (a b t : Nat) :
    t ∈ (l.take (searchsorted_left l b)).drop (searchsorted_left l a) ↔
      t ∈ l ∧ a ≤ t ∧ t < b := by
  induction l with
  | nil => simp [searchsorted_left]
  | cons x xs ih =>
    have hxlt : ∀ u ∈ xs, x < u := (List.pairwise_cons.1 hs).1
    have ihs := ih (List.pairwise_cons.1 hs).2
    unfold searchsorted_left at ihs ⊢
    rw [List.findIdx_cons, List.findIdx_cons]
    by_cases hb : b ≤ x
    · rw [show (decide (b ≤ x)) = true by simpa using hb]
      simp only [cond_true, List.take_zero, List.drop_nil, List.not_mem_nil, false_iff]
      rintro ⟨h1, _, h3⟩
      rcases List.mem_cons.1 h1 with h | h
      · omega
      · have := hxlt t h; omega
    · rw [show (decide (b ≤ x)) = false by simpa using hb]
      by_cases ha : a ≤ x
      · rw [show (decide (a ≤ x)) = true by simpa using ha]
        simp only [cond_false, cond_true, List.take_succ_cons, List.drop_zero, List.mem_cons]
        constructor
        · rintro (h | h)
          · subst h; exact ⟨by simp, by omega⟩
          · have h2 := (take_searchsorted_mem xs (List.pairwise_cons.1 hs).2 b t).1 h
            have := hxlt t h2.1
            exact ⟨Or.inr h2.1, by omega, h2.2⟩
        · rintro ⟨h1, h2, h3⟩
          rcases h1 with h | h
          · exact Or.inl h
          · exact Or.inr ((take_searchsorted_mem xs (List.pairwise_cons.1 hs).2 b t).2 ⟨h, h3⟩)
      · rw [show (decide (a ≤ x)) = false by simpa using ha]
        simp only [cond_false, List.take_succ_cons, List.drop_succ_cons]
        rw [ihs]
        constructor
        · rintro ⟨h1, h2, h3⟩
          exact ⟨List.mem_cons_of_mem x h1, h2, h3⟩
        · rintro ⟨h1, h2, h3⟩
          rcases List.mem_cons.1 h1 with h | h
          · omega
          · exact ⟨h, h2, h3⟩

theorem pyNormIdx_ofNat (n k : Nat) (hk : k ≤ n) : pyNormIdx n (Int.ofNat k) = k := by
  unfold pyNormIdx
  rw [if_neg (by simp)]
  simp [hk]

theorem slice_dt_time (v : SpeasyVariable) (a b : Nat) :
    (v.slice_dt a b).time =
      (v.time.take (searchsorted_left v.time b)).drop (searchsorted_left v.time a) := by
  unfold SpeasyVariable.slice_dt SpeasyVariable.view pySlice
  simp only
  rw [pyNormIdx_ofNat _ _ (searchsorted_le_length _ _),
    pyNormIdx_ofNat _ _ (searchsorted_le_length _ _)]

theorem slice_dt_mem (v : SpeasyVariable) (hs : List.Pairwise (· < ·) v.time) (a b t : Nat) :
    t ∈ (v.slice_dt a b).time ↔ t ∈ v.time ∧ a ≤ t ∧ t < b := by
  rw [slice_dt_time]
  exact slice_sorted_mem v.time hs a b t

theorem slice_dt_pairwise (v : SpeasyVariable) (hs : List.Pairwise (· < ·) v.time)
    (a b : Nat) : List.Pairwise (· < ·) (v.slice_dt a b).time := by
  rw [slice_dt_time]
  exact (hs.sublist (List.take_sublist _ _)).sublist (List.drop_sublist _ _)

theorem varEq_self (a : SpeasyVariable) : varEq a a = true := by simp [varEq]

theorem varEq_time (a b : SpeasyVariable) (h : varEq a b = true) : a.time = b.time := by
  simp only [varEq, Bool.and_eq_true, beq_iff_eq] at h
  exact h.1.2

theorem sort_pair (P Q : SpeasyVariable) :
    sort_by_first_time [P, Q] = if headTime P ≤ headTime Q then [P, Q] else [Q, P] := by
  simp only [sort_by_first_time, List.foldl_cons, List.foldl_nil]
  show insert_sorted Q (insert_sorted P []) = _
  rw [show insert_sorted P [] = [P] from rfl]
  simp only [insert_sorted]

theorem drop_prev_pair (P Q : SpeasyVariable) :
    drop_covered_by_prev [P, Q] =
      if lastTime Q ≤ lastTime P then (if varEq P Q then [Q] else [P]) else [P, Q] := by
  unfold drop_covered_by_prev
  simp only [List.tail_cons, List.zip_cons_cons, List.zip_nil_right, List.foldl_cons,
    List.foldl_nil]
  by_cases h : lastTime Q ≤ lastTime P
  · rw [if_pos (by simpa using h), if_pos h, List.eraseP_cons]
    by_cases he : varEq P Q
    · simp [he]
    · simp only [he, cond_false, List.eraseP_cons, varEq_self, cond_true]
      rw [if_neg (by simp [he])]
  · rw [if_neg (by simpa using h), if_neg h]

theorem drop_next_pair (P Q : SpeasyVariable) :
    drop_covered_by_next [P, Q] =
      if headTime Q = headTime P ∧ lastTime P ≤ lastTime Q then [Q] else [P, Q] := by
  unfold drop_covered_by_next
  simp only [List.tail_cons, List.zip_cons_cons, List.zip_nil_right, List.foldl_cons,
    List.foldl_nil]
  by_cases h : headTime Q = headTime P ∧ lastTime P ≤ lastTime Q
  · rw [if_pos (by simpa using h), if_pos h, List.eraseP_cons]
    simp [varEq_self]
  · rw [if_neg (by simpa using h), if_neg h]

theorem pair_coverage (P Q : SpeasyVariable)
    (hP : List.Pairwise (· < ·) P.time) (hQ : List.Pairwise (· < ·) Q.time)
    (cons1 : ∀ t ∈ P.time, headTime Q ≤ t → t ≤ lastTime Q → t ∈ Q.time)
    (cons2 : ∀ t ∈ Q.time, headTime P ≤ t → t ≤ lastTime P → t ∈ P.time)
    (hPQ : headTime P ≤ headTime Q) (t : Nat) :
    t ∈ spec_merged_times (drop_covered_by_next (drop_covered_by_prev [P, Q])) ↔
      (t ∈ P.time ∨ t ∈ Q.time) := by
  rw [drop_prev_pair]
  by_cases h1 : lastTime Q ≤ lastTime P
  · rw [if_pos h1]
    by_cases h2 : varEq P Q
    · rw [if_pos h2]
      have htime := varEq_time P Q h2
      rw [show drop_covered_by_next [Q] = [Q] from rfl]
      simp only [spec_merged_times]
      constructor
      · exact fun h => Or.inr h
      · rintro (h | h)
        · rw [htime] at h; exact h
        · exact h
    · rw [if_neg h2]
      rw [show drop_covered_by_next [P] = [P] from rfl]
      simp only [spec_merged_times]
      constructor
      · exact fun h => Or.inl h
      · rintro (h | h)
        · exact h
        · refine cons2 t h ?_ ?_
          · have := headD_le_mem Q.time 0 hQ t h
            simp only [headTime] at hPQ ⊢
            omega
          · have := mem_le_getLastD Q.time 0 hQ t h
            simp only [lastTime] at h1 ⊢
            omega
  · rw [if_neg h1]
    rw [drop_next_pair]
    by_cases h3 : headTime Q = headTime P ∧ lastTime P ≤ lastTime Q
    · rw [if_pos h3]
      simp only [spec_merged_times]
      constructor
      · exact fun h => Or.inr h
      · rintro (h | h)
        · refine cons1 t h ?_ ?_
          · have := headD_le_mem P.time 0 hP t h
            simp only [headTime] at h3 ⊢
            omega
          · have := mem_le_getLastD P.time 0 hP t h
            simp only [lastTime] at h3 ⊢
            omega
        · exact h
    · rw [if_neg h3]
      simp only [spec_merged_times, List.mem_append]
      constructor
      · rintro (h | h)
        · split at h
          · exact Or.inl (List.take_subset _ _ h)
          · exact Or.inl h
        · exact Or.inr h
      · rintro (h | h)
        · by_cases ht : t < headTime Q
          · left
            split
            · exact (take_searchsorted_mem P.time hP (headTime Q) t).2 ⟨h, ht⟩
            · exact h
          · right
            refine cons1 t h (by omega) ?_
            have := mem_le_getLastD P.time 0 hP t h
            simp only [lastTime] at h1 ⊢
            omega
        · exact Or.inr h

theorem mergeTrim_decompose (vars : List (Option SpeasyVariable)) (a b : Nat)
    (M : SpeasyVariable) (h : mergeTrim vars a b = .ok (some M)) :
    ∃ m, merge vars = .ok (some m) ∧ M = m.slice_dt a b := by
  unfold mergeTrim at h
  cases hm : merge vars with
  | error e => rw [hm] at h; simp at h
  | ok o =>
    cases o with
    | none => rw [hm] at h; simp at h
    | some m =>
      rw [hm] at h
      simp only [Except.ok.injEq, Option.some.injEq] at h
      exact ⟨m, rfl, h.symm⟩

theorem mergeTrim_time_pairwise (vars : List (Option SpeasyVariable)) (a b : Nat)
    (M : SpeasyVariable)
    (hsorted : ∀ v, some v ∈ vars → List.Pairwise (· < ·) v.time)
    (h : mergeTrim vars a b = .ok (some M)) :
    List.Pairwise (· < ·) M.time := by
  obtain ⟨m, hm, hM⟩ := mergeTrim_decompose vars a b M h
  subst hM
  apply slice_dt_pairwise
  rw [merge_time_eq_spec vars m hm]
  exact spec_merged_pairwise _ (fun v hv => hsorted v (mem_surviving vars v hv).1)
    (surviving_pairwise_heads vars)

theorem two_fragment_mem (A B : SpeasyVariable) (a b : Nat) (M : SpeasyVariable)
    (hA : List.Pairwise (· < ·) A.time) (hB : List.Pairwise (· < ·) B.time)
    (hAB : ∀ t ∈ A.time, B.time ≠ [] → headTime B ≤ t → t ≤ lastTime B → t ∈ B.time)
    (hBA : ∀ t ∈ B.time, A.time ≠ [] → headTime A ≤ t → t ≤ lastTime A → t ∈ A.time)
    (h : mergeTrim [some A, some B] a b = .ok (some M)) (t : Nat) :
    t ∈ M.time ↔ ((t ∈ A.time ∨ t ∈ B.time) ∧ a ≤ t ∧ t < b) := by
  obtain ⟨m, hm, hM⟩ := mergeTrim_decompose _ a b M h
  subst hM
  have hsorted : ∀ v, some v ∈ [some A, some B] → List.Pairwise (· < ·) v.time := by
    intro v hv
    simp only [List.mem_cons, List.not_mem_nil, or_false, Option.some.injEq] at hv
    rcases hv with hv | hv <;> subst hv
    · exact hA
    · exact hB
  have hmp : List.Pairwise (· < ·) m.time := by
    rw [merge_time_eq_spec _ m hm]
    exact spec_merged_pairwise _ (fun v hv => hsorted v (mem_surviving _ v hv).1)
      (surviving_pairwise_heads _)
  rw [slice_dt_mem m hmp a b t, merge_time_eq_spec _ m hm]
  have core : t ∈ spec_merged_times (surviving_fragments [some A, some B]) ↔
      (t ∈ A.time ∨ t ∈ B.time) := by
    unfold surviving_fragments
    rw [show ([some A, some B].filterMap id) = [A, B] from rfl]
    by_cases hAe : A.time = []
    · by_cases hBe : B.time = []
      · rw [show ([A, B].filter (fun v => 0 < v.time.length)) = [] by simp [hAe, hBe]]
        rw [show sort_by_first_time [] = [] from rfl]
        rw [show drop_covered_by_prev [] = [] from rfl]
        rw [show drop_covered_by_next [] = [] from rfl]
        simp [spec_merged_times, hAe, hBe]
      · rw [show ([A, B].filter (fun v => 0 < v.time.length)) = [B] by
          simp [hAe, List.filter, List.length_pos.2 hBe]]
        rw [show sort_by_first_time [B] = [B] from rfl]
        rw [show drop_covered_by_prev [B] = [B] from rfl]
        rw [show drop_covered_by_next [B] = [B] from rfl]
        simp [spec_merged_times, hAe]
    · by_cases hBe : B.time = []
      · rw [show ([A, B].filter (fun v => 0 < v.time.length)) = [A] by
          simp [hBe, List.filter, List.length_pos.2 hAe]]
        rw [show sort_by_first_time [A] = [A] from rfl]
        rw [show drop_covered_by_prev [A] = [A] from rfl]
        rw [show drop_covered_by_next [A] = [A] from rfl]
        simp [spec_merged_times, hBe]
      · rw [show ([A, B].filter (fun v => 0 < v.time.length)) = [A, B] by
          simp [List.filter, List.length_pos.2 hAe, List.length_pos.2 hBe]]
        rw [sort_pair]
        by_cases hh : headTime A ≤ headTime B
        · rw [if_pos hh]
          exact pair_coverage A B hA hB
            (fun u hu h1 h2 => hAB u hu hBe h1 h2)
            (fun u hu h1 h2 => hBA u hu hAe h1 h2) hh t
        · rw [if_neg hh]
          rw [pair_coverage B A hB hA
            (fun u hu h1 h2 => hBA u hu hAe h1 h2)
            (fun u hu h1 h2 => hAB u hu hBe h1 h2) (by omega) t]
          exact or_comm
  exact and_congr_left' core

/-- C1 counterexample: three overlapping fragments, each internally sorted and
non-self-overlapping, whose union covers [0, 5): timestamps {0,1,2,3,4} at
offsets making `cexB` nested in `cexA` and `cexC` nested in `cexA` but
outlasting `cexB`.  The first removal loop drops `cexB` (covered by `cexA`),
the unchecked new adjacency lets `cexC` survive although `cexA` covers it,
and the seam rule then truncates `cexA` at `cexC`'s first timestamp: the
merged-and-trimmed output misses timestamp 4, which is in the union and in
[0, 5), refuting the claim as stated. -/
theorem claim_C1_counterexample :
    mergeTrim [some cexA, some cexB, some cexC] 0 5 =
      .ok (some ⟨[0, 1, 2, 3], [[0], [201], [202], [203]], [], [], none⟩) ∧
    4 ∈ cexA.time ∧ 4 < 5 ∧ 4 ∉ ([0, 1, 2, 3] : List Nat) := by
  refine ⟨by decide, by decide, by decide, by decide⟩

/-- C1 (amended): (i) no-duplication holds in general: for any inputs whose
present fragments have strictly increasing timestamps, the merged-and-trimmed
output's timestamp list is strictly increasing, so no timestamp ever occurs
twice, at seams or elsewhere; (ii) coverage holds for collections of at most
two fragments that are mutually consistent (any timestamp of one lying within
the other's first-to-last span also occurs in the other): then the
merged-and-trimmed output contains a timestamp exactly when it lies in the
union of the inputs and in [a, b).  With three or more fragments coverage can
fail (see the counterexample); the consistency premise rules out fragments
sampling inconsistent series, where already two fragments lose data. -/
theorem claim_C1_coverage_no_duplication :
    (∀ (vars : List (Option SpeasyVariable)) (a b : Nat) (M : SpeasyVariable),
      (∀ v, some v ∈ vars → List.Pairwise (· < ·) v.time) →
      mergeTrim vars a b = .ok (some M) → List.Pairwise (· < ·) M.time) ∧
    (∀ (A B : SpeasyVariable) (a b : Nat) (M : SpeasyVariable),
      List.Pairwise (· < ·) A.time → List.Pairwise (· < ·) B.time →
      (∀ t ∈ A.time, B.time ≠ [] → headTime B ≤ t → t ≤ lastTime B → t ∈ B.time) →
      (∀ t ∈ B.time, A.time ≠ [] → headTime A ≤ t → t ≤ lastTime A → t ∈ A.time) →
      mergeTrim [some A, some B] a b = .ok (some M) →
      ∀ t, t ∈ M.time ↔ ((t ∈ A.time ∨ t ∈ B.time) ∧ a ≤ t ∧ t < b)) :=
  ⟨fun vars a b M hsorted h => mergeTrim_time_pairwise vars a b M hsorted h,
   fun A B a b M hA hB hAB hBA h t => two_fragment_mem A B a b M hA hB hAB hBA h t⟩

/-- C1 witness: part (i) applied to the counterexample's inputs, and part (ii)
applied to the consistent two-fragment pair `witP`, `witQ` over the window
[0, 4) at timestamp 3. -/
theorem claim_C1_witness :
    List.Pairwise (· < ·)
      ((⟨[0, 1, 2, 3], [[0], [201], [202], [203]], [], [], none⟩ : SpeasyVariable)).time ∧
    (3 ∈ ((⟨[0, 1, 2, 3], [[0], [1], [2], [3]], [], [], none⟩ : SpeasyVariable)).time ↔
      ((3 ∈ witP.time ∨ 3 ∈ witQ.time) ∧ 0 ≤ 3 ∧ 3 < 4)) :=
  ⟨claim_C1_coverage_no_duplication.1 [some cexA, some cexB, some cexC] 0 5
      ⟨[0, 1, 2, 3], [[0], [201], [202], [203]], [], [], none⟩
      (by
        intro v hv
        simp only [List.mem_cons, List.not_mem_nil, or_false, Option.some.injEq] at hv
        rcases hv with hv | hv | hv <;> subst hv <;> decide)
      (by decide),
   claim_C1_coverage_no_duplication.2 witP witQ 0 4
      ⟨[0, 1, 2, 3], [[0], [1], [2], [3]], [], [], none⟩
      (by decide) (by decide) (by decide) (by decide) (by decide) 3⟩

theorem hitB_isSome (cache : VCache Nat) (v fr : Nat) (h : hitB cache v fr = true) :
    (get_from_cache cache fr v).isSome = true := by
  unfold hitB at h
  unfold get_from_cache get_cache_entry
  cases hc : cache fr with
  | none => rw [hc] at h; simp at h
  | some e =>
    rw [hc] at h
    change is_up_to_date e v = true at h
    simp [h]

theorem map_zip_self {α β : Type} (g : α → β) (l : List α) :
    (l.map g).zip l = l.map (fun x => (g x, x)) := by
  induction l with
  | nil => rfl
  | cons x xs ih => simp [ih]

theorem missing_of_all_hits (cache : VCache Nat) (v : Nat) (frags : List Nat)
    (hall : ∀ fr ∈ frags, hitB cache v fr = true) :
    missing_of (get_fragments_from_cache cache frags v) frags = [] := by
  unfold missing_of get_fragments_from_cache
  rw [map_zip_self, List.filterMap_map, List.filterMap_eq_nil_iff]
  intro fr hfr
  have h2 := hitB_isSome cache v fr (hall fr hfr)
  cases hg : get_from_cache cache fr v with
  | none => rw [hg] at h2; simp at h2
  | some d => simp [Function.comp, hg]

/-- C3 (amended): when the cache already holds an up-to-date entry for every
fragment of the planned range — as it does after a first lookup that
populated them all with the current version — an identical lookup invokes the
fetch collaborator zero times and leaves the cache unchanged, so every
further repeat of the lookup returns identical output.  (The second lookup's
output can still differ from the POPULATING lookup's own output when a
pre-existing cache payload carries timestamps outside its fragment's range:
see the counterexample.) -/
theorem claim_C3_cached_lookup_stable (get_data : Nat → Nat → Option SpeasyVariable)
    (version f : Nat) (cache : VCache Nat) (start_time stop_time : Nat)
    (hall : ∀ fr ∈ (fragment_list f ⟨start_time, stop_time⟩).2,
      hitB cache version fr = true) :
    (wrapped get_data version f cache start_time stop_time false).log = [] ∧
    (wrapped get_data version f cache start_time stop_time false).cache = cache ∧
    (wrapped get_data version f
        (wrapped get_data version f cache start_time stop_time false).cache
        start_time stop_time false).out =
      (wrapped get_data version f cache start_time stop_time false).out := by
  have hmiss := missing_of_all_hits cache version
    (fragment_list f ⟨start_time, stop_time⟩).2 hall
  have hw : wrapped get_data version f cache start_time stop_time false =
      { out := if (get_fragments_from_cache cache
              (fragment_list f ⟨start_time, stop_time⟩).2 version ++ []).length ≠ 0
            then mergeTrim (get_fragments_from_cache cache
              (fragment_list f ⟨start_time, stop_time⟩).2 version ++ [])
              start_time stop_time
            else .ok none
        cache := cache
        log := [] } := by
    unfold wrapped
    rw [if_neg (by simp)]
    simp only [hmiss]
    rfl
  refine ⟨by rw [hw], by rw [hw], ?_⟩
  conv_lhs => rw [hw]

/-- C3 counterexample: request [1h, 54h) with 24-hour fragments and version 0
against a cache holding one pre-existing entry whose payload strays outside
its fragment.  After the first lookup every fragment of the range is cached
up to date and the second identical lookup performs zero fetch calls, yet its
output differs from the first lookup's output: the first lookup merged the
whole group response while the second merges its per-fragment slices, and the
straying cached payload makes the merge drop different samples. -/
theorem claim_C3_counterexample :
    ((fragment_list 24 ⟨hoursNs 1, hoursNs 54⟩).2.all
      (fun fr => hitB firstLookupC3.cache 0 fr)) = true ∧
    secondLookupC3.log = [] ∧
    firstLookupC3.log = [(hoursNs 24, hoursNs 72)] ∧
    secondLookupC3.out ≠ firstLookupC3.out := by
  refine ⟨by decide, by decide, by decide, by decide⟩

/-- C3 witness: the amended theorem applied to a fully populated cache. -/
theorem claim_C3_witness :
    (wrapped get_dataC3 0 24 fullCacheC3 (hoursNs 1) (hoursNs 54) false).log = [] ∧
    (wrapped get_dataC3 0 24 fullCacheC3 (hoursNs 1) (hoursNs 54) false).cache =
      fullCacheC3 ∧
    (wrapped get_dataC3 0 24
        (wrapped get_dataC3 0 24 fullCacheC3 (hoursNs 1) (hoursNs 54) false).cache
        (hoursNs 1) (hoursNs 54) false).out =
      (wrapped get_dataC3 0 24 fullCacheC3 (hoursNs 1) (hoursNs 54) false).out :=
  claim_C3_cached_lookup_stable get_dataC3 0 24 fullCacheC3 (hoursNs 1) (hoursNs 54)
    (by decide)

theorem mem_u_stale_pairs (cache : UCache) (retention now : Nat) (frags : List Nat)
    (frag : Nat) (e : UCacheItem) (hmem : frag ∈ frags) (hentry : cache frag = some e)
    (hstale : ¬ (now < e.version + retention)) :
    (frag, e) ∈ u_stale_pairs cache retention now frags := by
  unfold u_stale_pairs
  rw [List.mem_filterMap]
  refine ⟨frag, hmem, ?_⟩
  rw [hentry]
  simp [hstale]

theorem u_stale_pairs_entry (cache : UCache) (retention now : Nat) (frags : List Nat)
    (p : Nat × UCacheItem) (hp : p ∈ u_stale_pairs cache retention now frags) :
    cache p.1 = some p.2 := by
  unfold u_stale_pairs at hp
  rw [List.mem_filterMap] at hp
  obtain ⟨fr, hfr, hmap⟩ := hp
  cases hc : cache fr with
  | none => rw [hc] at hmap; simp at hmap
  | some e2 =>
    rw [hc] at hmap
    change (if now < e2.version + retention then none else some (fr, e2)) = some p at hmap
    by_cases hcond : now < e2.version + retention
    · rw [if_pos hcond] at hmap; simp at hmap
    · rw [if_neg hcond] at hmap
      simp only [Option.some.injEq] at hmap
      rw [← hmap]
      exact hc

theorem u_missing_not_mem (cache : UCache) (frags : List Nat) (frag : Nat)
    (e : UCacheItem) (hentry : cache frag = some e) :
    frag ∉ u_missing cache frags := by
  unfold u_missing
  intro h
  have := (List.mem_filter.1 h).2
  rw [hentry] at this
  simp at this

theorem foldl_setU_preserves (g : List Nat) (c : UCache) (mkE : Nat → UCacheItem)
    (k : Nat) (hk : k ∉ g) :
    (g.foldl (fun c fragment => set_cache_entryU c fragment (mkE fragment)) c) k = c k := by
  induction g generalizing c with
  | nil => rfl
  | cons x xs ih =>
    rw [List.foldl_cons]
    rw [ih _ (fun h => hk (List.mem_cons_of_mem x h))]
    unfold set_cache_entryU
    rw [if_neg (fun h => hk (by rw [h]; exact List.mem_cons_self x xs))]

theorem fetch_groupsU_foldl_preserves
    (get_data : Nat → Nat → Option Nat → Option SpeasyVariable) (now duration : Nat)
    (groups : List (List Nat)) (st : UFetchState) (k : Nat) (hk : k ∉ groups.flatten) :
    (groups.foldl (fun st group =>
        match group with
        | [] => st
        | f0 :: _ =>
          let a := f0
          let b := group.getLastD 0 + duration
          let fetched := get_data a b none
          let cache2 :=
            match fetched with
            | none => st.cache
            | some var =>
              group.foldl
                (fun c fragment =>
                  set_cache_entryU c fragment
                    ⟨var.slice_dt fragment (fragment + duration), now⟩)
                st.cache
          { chunks := st.chunks ++ (match fetched with | some v => [some v] | none => [])
            cache := cache2
            log := st.log ++ [(a, b, none)] }) st).cache k = st.cache k := by
  induction groups generalizing st with
  | nil => rfl
  | cons g gs ih =>
    have hkg : k ∉ g := fun h => hk (by
      simp only [List.flatten_cons, List.mem_append]
      exact Or.inl h)
    have hkgs : k ∉ gs.flatten := fun h => hk (by
      simp only [List.flatten_cons, List.mem_append]
      exact Or.inr h)
    rw [List.foldl_cons]
    rw [ih _ hkgs]
    cases g with
    | nil => rfl
    | cons f0 rest =>
      simp only
      cases get_data f0 ((f0 :: rest).getLastD 0 + duration) none with
      | none => rfl
      | some var => exact foldl_setU_preserves (f0 :: rest) st.cache _ k hkg

theorem fetch_groupsU_preserves (get_data : Nat → Nat → Option Nat → Option SpeasyVariable)
    (now duration : Nat) (cache : UCache) (groups : List (List Nat)) (k : Nat)
    (hk : k ∉ groups.flatten) :
    (fetch_groupsU get_data now duration cache groups).cache k = cache k := by
  unfold fetch_groupsU
  exact fetch_groupsU_foldl_preserves get_data now duration groups ⟨[], cache, []⟩ k hk

theorem revalidate_stale_all_none
    (get_data : Nat → Nat → Option Nat → Option SpeasyVariable) (now duration : Nat)
    (stale : List (Nat × UCacheItem)) (st : UFetchState)
    (hnone : ∀ p ∈ stale, get_data p.1 (p.1 + duration) (some p.2.version) = none) :
    ∃ st2, revalidate_stale get_data now duration stale st = .ok st2 ∧
      (∀ x ∈ st.chunks, x ∈ st2.chunks) ∧
      (∀ p ∈ stale, some p.2.data ∈ st2.chunks) ∧
      (∀ k, (∀ e, (k, e) ∉ stale) → st2.cache k = st.cache k) ∧
      (∀ k e, (k, e) ∈ stale → (∀ q ∈ stale, q.1 = k → q.2 = e) →
        st2.cache k = some ⟨e.data, now⟩) := by
  induction stale generalizing st with
  | nil =>
    refine ⟨st, rfl, fun x h => h, by simp, fun k _ => rfl, by simp⟩
  | cons p rest ih =>
    obtain ⟨pk, pe⟩ := p
    have hp := hnone (pk, pe) (by simp)
    have hstep : revalidate_stale get_data now duration ((pk, pe) :: rest) st =
        revalidate_stale get_data now duration rest
          { chunks := st.chunks ++ [some pe.data]
            cache := set_cache_entryU st.cache pk ⟨pe.data, now⟩
            log := st.log ++ [(pk, pk + duration, some pe.version)] } := by
      unfold revalidate_stale
      simp only [List.foldl_cons]
      rw [hp]
    rw [hstep]
    obtain ⟨st2, h1, h2, h3, h4, h5⟩ :=
      ih _ (fun q hq => hnone q (List.mem_cons_of_mem _ hq))
    refine ⟨st2, h1, ?_, ?_, ?_, ?_⟩
    · intro x hx
      exact h2 x (by simp [hx])
    · intro q hq
      rcases List.mem_cons.1 hq with hq | hq
      · subst hq
        exact h2 _ (by simp)
      · exact h3 q hq
    · intro k hk
      rw [h4 k (fun e he => hk e (List.mem_cons_of_mem _ he))]
      have hne : k ≠ pk := fun h => hk pe (by rw [h]; exact List.mem_cons_self _ _)
      simp [set_cache_entryU, hne]
    · intro k e hke huniq
      rcases List.mem_cons.1 hke with hke | hke
      · have hpk : pk = k := congrArg Prod.fst hke.symm
        have hpe : pe = e := congrArg Prod.snd hke.symm
        subst hpk
        subst hpe
        by_cases hkrest : ∃ e2, (pk, e2) ∈ rest
        · obtain ⟨e2, he2⟩ := hkrest
          have he2e : e2 = pe := huniq (pk, e2) (List.mem_cons_of_mem _ he2) rfl
          subst he2e
          exact h5 pk e2 he2
            (fun q hq hqk => huniq q (List.mem_cons_of_mem _ hq) hqk)
        · rw [h4 pk (fun e2 he2 => hkrest ⟨e2, he2⟩)]
          simp [set_cache_entryU]
      · exact h5 k e hke (fun q hq hqk => huniq q (List.mem_cons_of_mem _ hq) hqk)

/-- C6: in the retention (unversioned) orchestrator, when every maybe-stale
entry's conditional revalidation comes back with "no new data", each such
entry — here the one stored for `frag` — ends the lookup with its stored
version bumped to `now` while its payload is unchanged, and that unchanged
payload is among the chunks handed to the merger.  (The all-`None` premise
reflects the claim's own scenario; a non-`None` revalidation response would
abort the lookup before merging, because the source passes a bare datetime
where `add_to_cache` iterates over a fragment list.) -/
theorem claim_C6_retention_bump (get_data : Nat → Nat → Option Nat → Option SpeasyVariable)
    (retention now f : Nat) (cache : UCache) (start_time stop_time frag : Nat)
    (e : UCacheItem)
    (hmem : frag ∈ (fragment_list f ⟨start_time, stop_time⟩).2)
    (hentry : cache frag = some e)
    (hstale : ¬ (now < e.version + retention))
    (hnone : ∀ p ∈ u_stale_pairs cache retention now
        (fragment_list f ⟨start_time, stop_time⟩).2,
      get_data p.1 (p.1 + (fragment_list f ⟨start_time, stop_time⟩).1 * nsPerHour)
        (some p.2.version) = none) :
    partsCacheAt (wrappedU_parts get_data retention now f cache start_time stop_time) frag =
      some (some ⟨e.data, now⟩) ∧
    some e.data ∈
      partsChunks (wrappedU_parts get_data retention now f cache start_time stop_time) := by
  obtain ⟨st2, h1, h2, h3, h4, h5⟩ := revalidate_stale_all_none get_data now
    ((fragment_list f ⟨start_time, stop_time⟩).1 * nsPerHour)
    (u_stale_pairs cache retention now (fragment_list f ⟨start_time, stop_time⟩).2)
    (pre_revalidation_state get_data retention now f cache start_time stop_time) hnone
  have hw : wrappedU_parts get_data retention now f cache start_time stop_time = .ok st2 := by
    rw [← h1]
    rfl
  have hin : (frag, e) ∈ u_stale_pairs cache retention now
      (fragment_list f ⟨start_time, stop_time⟩).2 :=
    mem_u_stale_pairs cache retention now _ frag e hmem hentry hstale
  have huniq : ∀ q ∈ u_stale_pairs cache retention now
      (fragment_list f ⟨start_time, stop_time⟩).2, q.1 = frag → q.2 = e := by
    intro q hq hqk
    have hcq := u_stale_pairs_entry cache retention now _ q hq
    rw [hqk, hentry] at hcq
    exact (Option.some.inj hcq).symm
  rw [hw]
  exact ⟨congrArg some (h5 frag e hin huniq), h3 (frag, e) hin⟩

/-- C6 witness: the theorem applied to a concrete stale entry (stored at
wall-clock 10, retention 5, revalidated at wall-clock 100) with a
collaborator that returns no new data. -/
theorem claim_C6_witness :
    partsCacheAt (wrappedU_parts get_dataC6 5 100 24 cacheC6 (hoursNs 1) (hoursNs 10)) 0 =
      some (some ⟨staleEntryC6.data, 100⟩) ∧
    some staleEntryC6.data ∈
      partsChunks (wrappedU_parts get_dataC6 5 100 24 cacheC6 (hoursNs 1) (hoursNs 10)) :=
  claim_C6_retention_bump get_dataC6 5 100 24 cacheC6 (hoursNs 1) (hoursNs 10) 0
    staleEntryC6 (by decide) rfl (by decide) (by intro p hp; rfl)
